import Mathlib

/-!
Verification of the github_flavored_markdown renderer (src/main.go).

The renderer's byte buffers are modelled as `List Char` (all the behaviour
under verification is byte-by-byte and ASCII-driven; a Go byte that is not an
escape trigger is copied unchanged, exactly as a `Char` is here).  External
collaborators (blackfriday, html.Parse, sanitized_anchor_name.Create,
highlight_go, highlight_diff, annotate.Annotate) are taken as parameters of
the embedded functions; everything else is translated from src/main.go.
-/

namespace GFM

/-- Embedding of escapeSingleChar (src/main.go:337-351): the four HTML
entities; the Go `(string, bool)` pair with `ok=false` is `none`. -/
def escapeSingleChar (c : Char) : Option (List Char) :=
  if c = '"' then some ("&quot;".toList)
  else if c = '&' then some ("&amp;".toList)
  else if c = '<' then some ("&lt;".toList)
  else if c = '>' then some ("&gt;".toList)
  else none

/-- Embedding of the loop body of attrEscape (src/main.go:353-368).  `chunk`
holds the pending literal bytes `src[org:i]` that the Go code copies in one
write when it meets the next escapable byte (or the end of the input). -/
def attrEscapeAux : List Char → List Char → List Char
  | chunk, [] => chunk
  | chunk, c :: rest =>
    match escapeSingleChar c with
    | some entity => chunk ++ entity ++ attrEscapeAux [] rest
    | none => attrEscapeAux (chunk ++ [c]) rest

/-- Embedding of attrEscape (src/main.go:353-368). -/
def attrEscape (src : List Char) : List Char :=
  attrEscapeAux [] src

/-- The per-byte escape: the entity for `" & < >`, the byte itself
otherwise.  Used to state what attrEscape computes. -/
def escapedByte (c : Char) : List Char :=
  match escapeSingleChar c with
  | some e => e
  | none => [c]

/-- Embedding of findLang (src/main.go:123-130): `bytes.IndexAny(info, "\t ")`
is the first index holding a tab or space; when there is none the Go code
returns the empty slice, otherwise the prefix before that index. -/
def findLang (info : List Char) : List Char :=
  match info.findIdx? (fun c => c == '\t' || c == ' ') with
  | none => []
  | some endOfLang => info.take endOfLang

/-- The language-tag rule as the spec words it (section 6, code-block
language dispatch): the prefix of the fence-info string up to the first
whitespace, and the whole info string when it contains none. -/
def langTagSpec (info : List Char) : List Char :=
  info.takeWhile (fun c => !(c == '\t' || c == ' '))

/-- Embedding of codeblock (src/main.go:154-185).  `hl` stands for
highlightCode (src/main.go:238-327): it receives the literal source and the
language tag and returns `none` exactly when the Go function returns
`ok == false` (unrecognized language, or a highlighter error). -/
def codeblock (hl : List Char → List Char → Option (List Char))
    (info literal : List Char) : List Char :=
  let lang := findLang info
  (if lang = [] then "<pre><code>".toList
   else "<div class=\"highlight highlight-".toList ++ lang ++ "\">".toList)
  ++ (match hl literal lang with
      | some highlighted => highlighted
      | none => attrEscape literal)
  ++ (if lang = [] then "</code></pre>".toList else "</pre></div>".toList)

/-- Embedding of heading (src/main.go:132-152).  `extract` stands for the
composite `html.Parse` + extractText (with its unescape fallback), `slugOf`
for sanitized_anchor_name.Create; both are external.  The Go function writes
a newline first when the node has a previous sibling, then the anchor markup,
then immediately the closing tag — the write of the heading's inline content
(line 148) is commented out in the source. -/
def heading (extract slugOf : List Char → List Char) (hasPrev : Bool)
    (level : Nat) (literal : List Char) : List Char :=
  let anchorName := slugOf (extract literal)
  (if hasPrev then ['\n'] else [])
  ++ "<h".toList ++ (Nat.repr level).toList ++ "><a name=\"".toList
  ++ anchorName
  ++ "\" class=\"anchor\" href=\"#".toList ++ anchorName
  ++ "\" rel=\"nofollow\" aria-hidden=\"true\"><span class=\"octicon octicon-link\"></span></a>".toList
  ++ "</h".toList ++ (Nat.repr level).toList ++ ">\n".toList

/-- The heading markup contract as the spec words it (section 6, bit-exact):
the anchor element followed by the original inline content, inside the
heading tag. -/
def specHeadingMarkup (level : Nat) (slug content : List Char) : List Char :=
  "<h".toList ++ (Nat.repr level).toList ++ "><a name=\"".toList
  ++ slug
  ++ "\" class=\"anchor\" href=\"#".toList ++ slug
  ++ "\" rel=\"nofollow\" aria-hidden=\"true\"><span class=\"octicon octicon-link\"></span></a>".toList
  ++ content
  ++ "</h".toList ++ (Nat.repr level).toList ++ ">".toList

/-- Models annotate.Annotation (external type, populated at
src/main.go:289-290): a half-open byte range with open/close markup. -/
structure Ann where
  start : Nat
  endPos : Nat
  left : List Char
  right : List Char
  wantInner : Nat
deriving DecidableEq

/-- Embedding of `bytes.Split(src, []byte("\n"))` (src/main.go:253): the
maximal '\n'-free segments, one more than the number of newlines. -/
def splitLines : List Char → List (List Char)
  | [] => [[]]
  | c :: rest =>
    if c = '\n' then [] :: splitLines rest
    else
      match splitLines rest with
      | l :: ls => (c :: l) :: ls
      | [] => [[c]]

/-- Embedding of the lineStarts computation (src/main.go:254-259): each
line's starting byte offset, stepping by the line length plus one for the
newline. -/
def lineStarts : List (List Char) → Nat → List Nat
  | [], _ => []
  | l :: rest, off => off :: lineStarts rest (off + (l.length + 1))

/-- The total offset footprint of a line list: each line's length plus one
for its newline.  (Proof-side measure for bounding lineStarts entries.) -/
def totalLen (ls : List (List Char)) : Nat :=
  (ls.map (fun l => l.length + 1)).sum

/-- Embedding of the lineFirstChar computation (src/main.go:263-266): the
first byte of the line, or the zero byte for an empty line. -/
def lineFirstChar (l : List Char) : Char :=
  match l with
  | [] => Char.ofNat 0
  | c :: _ => c

/-- One closed-out change hunk of the diff segmenter: the local variables of
the default branch of src/main.go:276-313 at close-out time.  `del` and
`ins` are the adjusted lastDel/lastIns line indices, `closeIdx` the line
index at which the hunk was closed, the four offsets the values put into the
two coarse wrapper annotations, and `fine` the guard `'@' != lineFirstChar`
deciding whether the intra-line fine-grained pass runs (src/main.go:292). -/
structure ChangeHunk where
  del : Nat
  ins : Nat
  closeIdx : Nat
  beginOffsetLeft : Nat
  endOffsetLeft : Nat
  beginOffsetRight : Nat
  endOffsetRight : Nat
  fine : Bool
deriving DecidableEq

/-- Embedding of the close-out of a pending run (src/main.go:277-292).  The
Go sentinels `lastDel == -1` / `lastIns == -1` are `none`; the adjustment is
`if lastDel == -1 then lastDel = lastIns else if lastIns == -1 then
lastIns = lineIndex`, and the `none, none` case is unreachable (the caller
guards on at least one marker being set). -/
def closeHunk (starts : List Nat) (lastDel lastIns : Option Nat) (i : Nat)
    (c : Char) : ChangeHunk :=
  let dn : Nat × Nat :=
    match lastDel, lastIns with
    | none, li => (li.getD 0, li.getD 0)
    | some d, none => (d, i)
    | some d, some n => (d, n)
  { del := dn.1
    ins := dn.2
    closeIdx := i
    beginOffsetLeft := starts.getD dn.1 0
    endOffsetLeft := starts.getD dn.2 0
    beginOffsetRight := starts.getD dn.2 0
    endOffsetRight := starts.getD i 0
    fine := c != '@' }

/-- Embedding of the scanning loop of the diff hunk segmenter
(src/main.go:261-315): classify each line by its first byte, record the
first index of a pending removal/addition run, close the run out on any
other line.  Returns the closed-out hunks in scan order. -/
def segRun (starts : List Nat) :
    List (List Char) → Nat → Option Nat → Option Nat → List ChangeHunk
  | [], _, _, _ => []
  | l :: rest, i, lastDel, lastIns =>
    if lineFirstChar l = '+' then
      segRun starts rest (i + 1) lastDel
        (if lastIns = none then some i else lastIns)
    else if lineFirstChar l = '-' then
      segRun starts rest (i + 1)
        (if lastDel = none then some i else lastDel) lastIns
    else
      (if lastDel ≠ none ∨ lastIns ≠ none then
        [closeHunk starts lastDel lastIns i (lineFirstChar l)]
      else [])
      ++ segRun starts rest (i + 1) none none

/-- The diff hunk segmenter over a whole source buffer
(src/main.go:252-315, the "diff" branch of highlightCode, with the external
tokenizer annotations left out). -/
def diffHunks (src : List Char) : List ChangeHunk :=
  segRun (lineStarts (splitLines src) 0) (splitLines src) 0 none none

/-- The open markup of the coarse removed-block wrapper (src/main.go:289). -/
def gdMarkup : List Char := "<span class=\"gd input-block\">".toList

/-- The open markup of the coarse added-block wrapper (src/main.go:290). -/
def giMarkup : List Char := "<span class=\"gi input-block\">".toList

/-- The close markup of both coarse wrappers (src/main.go:289-290). -/
def spanClose : List Char := "</span>".toList

/-- The two coarse wrapper annotations appended for one hunk
(src/main.go:289-290). -/
def hunkAnns (h : ChangeHunk) : List Ann :=
  [ { start := h.beginOffsetLeft, endPos := h.endOffsetLeft,
      left := gdMarkup, right := spanClose, wantInner := 0 },
    { start := h.beginOffsetRight, endPos := h.endOffsetRight,
      left := giMarkup, right := spanClose, wantInner := 0 } ]

/-- All coarse wrapper annotations the segmenter appends for a buffer. -/
def coarseAnns (src : List Char) : List Ann :=
  (diffHunks src).flatMap hunkAnns

/-- Embedding of the leftContent/rightContent construction
(src/main.go:297-304): the lines of index `lo ≤ line < hi`, each with its
leading marker byte replaced by the zero-byte sentinel and a newline
appended. -/
def strippedContent (lines : List (List Char)) (lo hi : Nat) : List Char :=
  ((List.range (hi - lo)).map
    (fun k => Char.ofNat 0 :: ((lines.getD (lo + k) []).drop 1 ++ ['\n']))).flatten

/-- The annotations the diff branch appends over a buffer
(src/main.go:276-311): per hunk, the two coarse wrappers, then — only when
the `'@'` guard lets the fine-grained pass run — the two span lists produced
by the external highlight_diff.HighlightedDiffFunc, modelled by `oracle`
(arguments: stripped left content, stripped right content, left offset,
right offset). -/
def diffAnns
    (oracle : List Char → List Char → Nat → Nat → List Ann × List Ann)
    (src : List Char) : List Ann :=
  (diffHunks src).flatMap (fun h =>
    hunkAnns h ++
    (if h.fine then
      let s := oracle (strippedContent (splitLines src) h.del h.ins)
        (strippedContent (splitLines src) h.ins h.closeIdx)
        h.beginOffsetLeft h.beginOffsetRight
      s.1 ++ s.2
    else []))

/-- Helper: what a cons-shaped `drop` says about the element at `i`. -/
theorem drop_cons_facts {α : Type} (d : α) :
    ∀ (xs : List α) (i : Nat) (a : α) (rest : List α),
      xs.drop i = a :: rest →
      xs.getD i d = a ∧ i < xs.length ∧ xs.drop (i + 1) = rest := by
  intro xs
  induction xs with
  | nil =>
    intro i a rest h
    simp [List.drop_nil] at h
  | cons x xs ih =>
    intro i a rest h
    cases i with
    | zero =>
      simp only [List.drop_zero] at h
      cases h
      exact ⟨rfl, by simp, by simp⟩
    | succ i =>
      simp only [List.drop_succ_cons] at h
      obtain ⟨h1, h2, h3⟩ := ih i a rest h
      refine ⟨h1, by simpa using Nat.succ_lt_succ h2, ?_⟩
      simpa [List.drop_succ_cons] using h3

/-- Helper: every in-range entry of `lineStarts` is at least the running
offset. -/
theorem lineStarts_getD_ge :
    ∀ (ls : List (List Char)) (off k : Nat), k < ls.length →
      off ≤ (lineStarts ls off).getD k 0 := by
  intro ls
  induction ls with
  | nil => intro off k hk; simp at hk
  | cons l rest ih =>
    intro off k hk
    cases k with
    | zero => simp [lineStarts]
    | succ k =>
      have hk' : k < rest.length := by simpa using hk
      have := ih (off + (l.length + 1)) k hk'
      simp only [lineStarts, List.getD_cons_succ]
      omega

/-- Helper: `lineStarts` is monotone over in-range indices. -/
theorem lineStarts_mono :
    ∀ (ls : List (List Char)) (off k m : Nat), k ≤ m → m < ls.length →
      (lineStarts ls off).getD k 0 ≤ (lineStarts ls off).getD m 0 := by
  intro ls
  induction ls with
  | nil => intro off k m _ hm; simp at hm
  | cons l rest ih =>
    intro off k m hkm hm
    cases m with
    | zero =>
      have : k = 0 := Nat.le_zero.mp hkm
      subst this
      exact Nat.le_refl _
    | succ m =>
      have hm' : m < rest.length := by simpa using hm
      cases k with
      | zero =>
        have h1 := lineStarts_getD_ge rest (off + (l.length + 1)) m hm'
        simp only [lineStarts, List.getD_cons_zero, List.getD_cons_succ]
        omega
      | succ k =>
        have := ih (off + (l.length + 1)) k m (Nat.succ_le_succ_iff.mp hkm) hm'
        simpa [lineStarts] using this

/-- Helper: every in-range entry of `lineStarts` is strictly below the
running offset plus the total footprint. -/
theorem lineStarts_getD_lt :
    ∀ (ls : List (List Char)) (off k : Nat), k < ls.length →
      (lineStarts ls off).getD k 0 + 1 ≤ off + totalLen ls := by
  intro ls
  induction ls with
  | nil => intro off k hk; simp at hk
  | cons l rest ih =>
    intro off k hk
    cases k with
    | zero =>
      simp only [lineStarts, List.getD_cons_zero, totalLen, List.map_cons,
        List.sum_cons]
      omega
    | succ k =>
      have hk' : k < rest.length := by simpa using hk
      have := ih (off + (l.length + 1)) k hk'
      simp only [lineStarts, List.getD_cons_succ, totalLen, List.map_cons,
        List.sum_cons] at this ⊢
      omega

/-- Helper: splitting never yields the empty list of lines. -/
theorem splitLines_ne_nil : ∀ (src : List Char), splitLines src ≠ [] := by
  intro src
  induction src with
  | nil => simp [splitLines]
  | cons c rest ih =>
    by_cases h : c = '\n'
    · simp [splitLines, h]
    · simp only [splitLines, if_neg h]
      cases hs : splitLines rest with
      | nil => exact absurd hs ih
      | cons l ls => simp

/-- Helper: the footprint of the split lines is the source length plus one
(each byte counted once, plus one per line). -/
theorem totalLen_splitLines :
    ∀ (src : List Char), totalLen (splitLines src) = src.length + 1 := by
  intro src
  induction src with
  | nil => simp [splitLines, totalLen]
  | cons c rest ih =>
    by_cases h : c = '\n'
    · simp only [splitLines, if_pos h, totalLen, List.map_cons, List.sum_cons,
        List.length_nil, List.length_cons]
      simp only [totalLen] at ih
      omega
    · simp only [splitLines, if_neg h]
      cases hs : splitLines rest with
      | nil => exact absurd hs (splitLines_ne_nil rest)
      | cons l ls =>
        simp only [totalLen, List.map_cons, List.sum_cons]
        rw [hs] at ih
        simp only [totalLen, List.map_cons, List.sum_cons] at ih
        simp only [List.length_cons]
        omega

/-- Helper: an in-range start offset of the split lines is a valid position
of the source buffer. -/
theorem splitLines_starts_le (src : List Char) (k : Nat)
    (hk : k < (splitLines src).length) :
    (lineStarts (splitLines src) 0).getD k 0 ≤ src.length := by
  have h1 := lineStarts_getD_lt (splitLines src) 0 k hk
  rw [totalLen_splitLines] at h1
  omega

/-- Helper: appending a final newline appends one empty line to the split. -/
theorem splitLines_append_newline :
    ∀ (src : List Char), splitLines (src ++ ['\n']) = splitLines src ++ [[]] := by
  intro src
  induction src with
  | nil => simp [splitLines]
  | cons c rest ih =>
    by_cases h : c = '\n'
    · simp [splitLines, h, ih]
    · simp only [List.cons_append, splitLines, if_neg h, List.append_eq]
      rw [ih]
      cases hs : splitLines rest with
      | nil => exact absurd hs (splitLines_ne_nil rest)
      | cons l ls => simp

/-- Helper: attrEscapeAux prepends its pending chunk and escapes the rest
byte by byte. -/
theorem attrEscapeAux_eq :
    ∀ (src chunk : List Char),
      attrEscapeAux chunk src = chunk ++ (src.map escapedByte).flatten := by
  intro src
  induction src with
  | nil => intro chunk; simp [attrEscapeAux]
  | cons c rest ih =>
    intro chunk
    simp only [attrEscapeAux, List.map_cons, List.flatten_cons]
    cases h : escapeSingleChar c with
    | none => rw [ih (chunk ++ [c])]; simp [escapedByte, h]
    | some entity => rw [ih []]; simp [escapedByte, h]

/-- Helper: the invariant of the segmenter scan.  Every closed-out hunk
records in-range line indices; its addition side starts no later than the
closing line; the closing line is neither a removal nor an addition line;
the removal side starts on a '-' line (or, for a pure addition, on the '+'
line opening the addition side); the fine-pass guard holds exactly when the
closing line does not start with '@'; and the four offsets are the
lineStarts entries of the recorded indices. -/
theorem segRun_inv (starts : List Nat) (lines : List (List Char)) :
    ∀ (rest : List (List Char)) (i : Nat) (ld li : Option Nat),
      lines.drop i = rest →
      (∀ d, ld = some d → d < i ∧ lineFirstChar (lines.getD d []) = '-') →
      (∀ n, li = some n → n < i ∧ lineFirstChar (lines.getD n []) = '+') →
      ∀ h ∈ segRun starts rest i ld li,
        h.del < lines.length ∧
        h.ins ≤ h.closeIdx ∧
        h.closeIdx < lines.length ∧
        (lineFirstChar (lines.getD h.del []) = '-' ∨
          lineFirstChar (lines.getD h.del []) = '+') ∧
        lineFirstChar (lines.getD h.closeIdx []) ≠ '+' ∧
        lineFirstChar (lines.getD h.closeIdx []) ≠ '-' ∧
        (h.fine = true ↔ lineFirstChar (lines.getD h.closeIdx []) ≠ '@') ∧
        h.beginOffsetLeft = starts.getD h.del 0 ∧
        h.endOffsetLeft = starts.getD h.ins 0 ∧
        h.beginOffsetRight = starts.getD h.ins 0 ∧
        h.endOffsetRight = starts.getD h.closeIdx 0 := by
  intro rest
  induction rest with
  | nil =>
    intro i ld li _ _ _ h hm
    simp [segRun] at hm
  | cons l rest ih =>
    intro i ld li hdrop hld hli h hm
    obtain ⟨hgetd, hlen, hdrop'⟩ := drop_cons_facts [] lines i l rest hdrop
    simp only [segRun] at hm
    by_cases hplus : lineFirstChar l = '+'
    · rw [if_pos hplus] at hm
      refine ih (i + 1) ld _ hdrop' (fun d hd => ?_) (fun n hn => ?_) h hm
      · obtain ⟨h1, h2⟩ := hld d hd
        exact ⟨Nat.lt_succ_of_lt h1, h2⟩
      · cases li with
        | none =>
          simp at hn
          subst hn
          exact ⟨Nat.lt_succ_self i, by rw [hgetd]; exact hplus⟩
        | some m =>
          simp at hn
          cases hn
          obtain ⟨h1, h2⟩ := hli _ rfl
          exact ⟨Nat.lt_succ_of_lt h1, h2⟩
    · rw [if_neg hplus] at hm
      by_cases hminus : lineFirstChar l = '-'
      · rw [if_pos hminus] at hm
        refine ih (i + 1) _ li hdrop' (fun d hd => ?_) (fun n hn => ?_) h hm
        · cases ld with
          | none =>
            simp at hd
            subst hd
            exact ⟨Nat.lt_succ_self i, by rw [hgetd]; exact hminus⟩
          | some m =>
            simp at hd
            cases hd
            obtain ⟨h1, h2⟩ := hld _ rfl
            exact ⟨Nat.lt_succ_of_lt h1, h2⟩
        · obtain ⟨h1, h2⟩ := hli n hn
          exact ⟨Nat.lt_succ_of_lt h1, h2⟩
      · rw [if_neg hminus] at hm
        rcases List.mem_append.mp hm with hm | hm
        · by_cases hguard : ld ≠ none ∨ li ≠ none
          · rw [if_pos hguard] at hm
            have heq : h = closeHunk starts ld li i (lineFirstChar l) :=
              List.mem_singleton.mp hm
            subst heq
            cases ld with
            | none =>
              cases li with
              | none => rcases hguard with hg | hg <;> exact absurd rfl hg
              | some n =>
                obtain ⟨hn1, hn2⟩ := hli n rfl
                exact ⟨Nat.lt_trans hn1 hlen, Nat.le_of_lt hn1, hlen, Or.inr hn2,
                  by show lineFirstChar (lines.getD i []) ≠ '+'; rw [hgetd]; exact hplus,
                  by show lineFirstChar (lines.getD i []) ≠ '-'; rw [hgetd]; exact hminus,
                  by show (lineFirstChar l != '@') = true ↔ lineFirstChar (lines.getD i []) ≠ '@'
                     rw [hgetd]; exact bne_iff_ne,
                  rfl, rfl, rfl, rfl⟩
            | some d =>
              obtain ⟨hd1, hd2⟩ := hld d rfl
              cases li with
              | none =>
                exact ⟨Nat.lt_trans hd1 hlen, Nat.le_refl i, hlen, Or.inl hd2,
                  by show lineFirstChar (lines.getD i []) ≠ '+'; rw [hgetd]; exact hplus,
                  by show lineFirstChar (lines.getD i []) ≠ '-'; rw [hgetd]; exact hminus,
                  by show (lineFirstChar l != '@') = true ↔ lineFirstChar (lines.getD i []) ≠ '@'
                     rw [hgetd]; exact bne_iff_ne,
                  rfl, rfl, rfl, rfl⟩
              | some n =>
                obtain ⟨hn1, hn2⟩ := hli n rfl
                exact ⟨Nat.lt_trans hd1 hlen, Nat.le_of_lt hn1, hlen, Or.inl hd2,
                  by show lineFirstChar (lines.getD i []) ≠ '+'; rw [hgetd]; exact hplus,
                  by show lineFirstChar (lines.getD i []) ≠ '-'; rw [hgetd]; exact hminus,
                  by show (lineFirstChar l != '@') = true ↔ lineFirstChar (lines.getD i []) ≠ '@'
                     rw [hgetd]; exact bne_iff_ne,
                  rfl, rfl, rfl, rfl⟩
          · rw [if_neg hguard] at hm
            simp at hm
        · exact ih (i + 1) none none hdrop' (fun d hd => Option.noConfusion hd)
            (fun n hn => Option.noConfusion hn) h hm

/-- Claim C1 (code defect evidence): at a concrete level-1 heading with
inline content "Hello", the heading renderer emits the anchor markup and
then immediately the closing tag — the inline content is omitted entirely
(its write is commented out at src/main.go:148) — so the output differs
from the spec's heading markup contract, which keeps the original inline
content between the anchor element and the closing heading tag. -/
theorem heading_omits_inline_content :
    heading (fun l => l) (fun _ => "hello".toList) false 1 "Hello".toList =
      "<h1><a name=\"hello\" class=\"anchor\" href=\"#hello\" rel=\"nofollow\" aria-hidden=\"true\"><span class=\"octicon octicon-link\"></span></a></h1>\n".toList
    ∧ specHeadingMarkup 1 "hello".toList "Hello".toList =
      "<h1><a name=\"hello\" class=\"anchor\" href=\"#hello\" rel=\"nofollow\" aria-hidden=\"true\"><span class=\"octicon octicon-link\"></span></a>Hello</h1>".toList
    ∧ heading (fun l => l) (fun _ => "hello".toList) false 1 "Hello".toList ≠
      specHeadingMarkup 1 "hello".toList "Hello".toList := by
  refine ⟨by decide, by decide, by decide⟩

/-- Claim C2 (code defect evidence): with a recognized language tag ("Go",
reachable through fence info "Go x") the code block renders as
`<div class="highlight highlight-Go">...</pre></div>` — no opening `<pre>`
is ever written after the div, although a closing `</pre>` is — and a block
whose non-empty language tag is not recognized ("python") still gets the
div wrapper with the escaped source, not `<pre><code>`. -/
theorem codeblock_missing_pre :
    codeblock (fun _ lang => if lang = "Go".toList then some "CODE".toList else none)
      "Go x".toList "a".toList
      = "<div class=\"highlight highlight-Go\">CODE</pre></div>".toList
    ∧ codeblock (fun _ _ => none) "python x".toList "<a>".toList
      = "<div class=\"highlight highlight-python\">&lt;a&gt;</pre></div>".toList := by
  refine ⟨by decide, by decide⟩

/-- Claim C3 (code defect evidence): for the whitespace-free fence info
"Go", findLang returns the empty tag — not the whole info string as the
spec's dispatch rule (langTagSpec) prescribes — while for "Go x" it does
return the prefix before the whitespace. -/
theorem findLang_empty_when_no_whitespace :
    findLang "Go".toList = [] ∧
    "Go".toList ≠ ([] : List Char) ∧
    langTagSpec "Go".toList = "Go".toList ∧
    findLang "Go x".toList = "Go".toList := by
  refine ⟨by decide, by decide, by decide, by decide⟩

/-- Claim C4 counterexample: in the diff block "-a\n+b\n@x\nc" the single
hunk's removal block starts with the line "-a" (first byte '-', not '@'),
yet its fine-pass guard is false — the guard looks at the line that closes
the hunk ("@x"), not at the removal block's first line — so, with a
sentinel fine-grained oracle, only the two coarse wrapper annotations are
emitted and no fine-grained annotation appears, contradicting the claim
that such a hunk receives the fine-grained pass. -/
theorem fine_pass_skipped_for_dash_hunk :
    diffHunks ['-','a','\n','+','b','\n','@','x','\n','c'] =
      [{ del := 0, ins := 1, closeIdx := 2, beginOffsetLeft := 0,
         endOffsetLeft := 3, beginOffsetRight := 3, endOffsetRight := 6,
         fine := false }]
    ∧ lineFirstChar ((splitLines ['-','a','\n','+','b','\n','@','x','\n','c']).getD 0 []) = '-'
    ∧ diffAnns
        (fun _ _ _ _ => ([{ start := 99, endPos := 99, left := [], right := [], wantInner := 1 }], []))
        ['-','a','\n','+','b','\n','@','x','\n','c'] =
      [{ start := 0, endPos := 3, left := gdMarkup, right := spanClose, wantInner := 0 },
       { start := 3, endPos := 6, left := giMarkup, right := spanClose, wantInner := 0 }] := by
  refine ⟨by decide, by decide, by decide⟩

/-- Claim C4 as amended: a hunk's removal block never begins with '@' — its
first line is a '-' line, or the opening '+' line for a pure addition —
and the fine-grained pass is skipped exactly when the line that CLOSES the
hunk (the first non-removed, non-added line after the run) begins with
'@'; hunks closed by a non-'@' line receive the fine-grained pass. -/
theorem hunk_fine_pass_guard (src : List Char) (h : ChangeHunk)
    (hm : h ∈ diffHunks src) :
    (lineFirstChar ((splitLines src).getD h.del []) = '-' ∨
      lineFirstChar ((splitLines src).getD h.del []) = '+') ∧
    (h.fine = true ↔ lineFirstChar ((splitLines src).getD h.closeIdx []) ≠ '@') := by
  obtain ⟨_, _, _, h4, _, _, h7, _, _, _, _⟩ :=
    segRun_inv (lineStarts (splitLines src) 0) (splitLines src) (splitLines src) 0
      none none (by simp) (fun d hd => Option.noConfusion hd)
      (fun n hn => Option.noConfusion hn) h hm
  exact ⟨h4, h7⟩

/-- Witness for hunk_fine_pass_guard at the diff block "-a\nb". -/
theorem hunk_fine_pass_guard_witness :
    (({ del := 0, ins := 1, closeIdx := 1, beginOffsetLeft := 0,
        endOffsetLeft := 3, beginOffsetRight := 3, endOffsetRight := 3,
        fine := true } : ChangeHunk) ∈ diffHunks ['-','a','\n','b']) ∧
    ((lineFirstChar ((splitLines ['-','a','\n','b']).getD
        ({ del := 0, ins := 1, closeIdx := 1, beginOffsetLeft := 0,
           endOffsetLeft := 3, beginOffsetRight := 3, endOffsetRight := 3,
           fine := true } : ChangeHunk).del []) = '-' ∨
      lineFirstChar ((splitLines ['-','a','\n','b']).getD
        ({ del := 0, ins := 1, closeIdx := 1, beginOffsetLeft := 0,
           endOffsetLeft := 3, beginOffsetRight := 3, endOffsetRight := 3,
           fine := true } : ChangeHunk).del []) = '+') ∧
     (({ del := 0, ins := 1, closeIdx := 1, beginOffsetLeft := 0,
         endOffsetLeft := 3, beginOffsetRight := 3, endOffsetRight := 3,
         fine := true } : ChangeHunk).fine = true ↔
       lineFirstChar ((splitLines ['-','a','\n','b']).getD
        ({ del := 0, ins := 1, closeIdx := 1, beginOffsetLeft := 0,
           endOffsetLeft := 3, beginOffsetRight := 3, endOffsetRight := 3,
           fine := true } : ChangeHunk).closeIdx []) ≠ '@')) :=
  ⟨by decide, hunk_fine_pass_guard ['-','a','\n','b'] _ (by decide)⟩

/-- Claim C5 counterexample: in the diff block "+c\n-a\ne" an Added line
precedes the Removed line of the same hunk, and the old-side coarse
wrapper annotation comes out inverted: its end offset (0) is strictly
below its start offset (3). -/
theorem coarse_annotation_inverted :
    ∃ a ∈ coarseAnns ['+','c','\n','-','a','\n','e'], a.endPos < a.start := by
  decide

/-- Claim C5 as amended: for every hunk the new-side annotation satisfies
start ≤ end, the old side's end equals the new side's start, the old side
also satisfies start ≤ end whenever the recorded removal start does not
come after the addition start (which fails only when an Added line precedes
the first Removed line of the hunk), and all four offsets are valid
positions of the source buffer. -/
theorem coarse_wrapper_bounds (src : List Char) (h : ChangeHunk)
    (hm : h ∈ diffHunks src) :
    h.beginOffsetRight ≤ h.endOffsetRight ∧
    h.endOffsetLeft = h.beginOffsetRight ∧
    (h.del ≤ h.ins → h.beginOffsetLeft ≤ h.endOffsetLeft) ∧
    h.beginOffsetLeft ≤ src.length ∧
    h.endOffsetLeft ≤ src.length ∧
    h.endOffsetRight ≤ src.length := by
  obtain ⟨h1, h2, h3, _, _, _, _, h8, h9, h10, h11⟩ :=
    segRun_inv (lineStarts (splitLines src) 0) (splitLines src) (splitLines src) 0
      none none (by simp) (fun d hd => Option.noConfusion hd)
      (fun n hn => Option.noConfusion hn) h hm
  have hins : h.ins < (splitLines src).length := Nat.lt_of_le_of_lt h2 h3
  refine ⟨?_, ?_, ?_, ?_, ?_, ?_⟩
  · rw [h10, h11]
    exact lineStarts_mono (splitLines src) 0 h.ins h.closeIdx h2 h3
  · rw [h9, h10]
  · intro hdi
    rw [h8, h9]
    exact lineStarts_mono (splitLines src) 0 h.del h.ins hdi hins
  · rw [h8]
    exact splitLines_starts_le src h.del h1
  · rw [h9]
    exact splitLines_starts_le src h.ins hins
  · rw [h11]
    exact splitLines_starts_le src h.closeIdx h3

/-- Witness for coarse_wrapper_bounds at the diff block "-a\ne". -/
theorem coarse_wrapper_bounds_witness :
    (({ del := 0, ins := 1, closeIdx := 1, beginOffsetLeft := 0,
        endOffsetLeft := 3, beginOffsetRight := 3, endOffsetRight := 3,
        fine := true } : ChangeHunk) ∈ diffHunks ['-','a','\n','e']) ∧
    ((3 : Nat) ≤ 3 ∧ (3 : Nat) = 3 ∧ ((0 : Nat) ≤ 1 → (0 : Nat) ≤ 3) ∧
     (0 : Nat) ≤ 4 ∧ (3 : Nat) ≤ 4 ∧ (3 : Nat) ≤ 4) :=
  ⟨by decide, coarse_wrapper_bounds ['-','a','\n','e']
    { del := 0, ins := 1, closeIdx := 1, beginOffsetLeft := 0,
      endOffsetLeft := 3, beginOffsetRight := 3, endOffsetRight := 3,
      fine := true } (by decide)⟩

/-- Claim C6 counterexample: the diff block "-a\n+b" (no trailing newline)
ends while a removal/addition run is still pending — its final line is the
Added line "+b" — yet the segmenter closes out no hunk at all: the scan
only closes a run on a scanned non-removed, non-added line, and none
follows. -/
theorem pending_run_dropped_at_eof :
    diffHunks ['-','a','\n','+','b'] = [] ∧
    splitLines ['-','a','\n','+','b'] = [['-','a'], ['+','b']] := by
  refine ⟨by decide, by decide⟩

/-- Claim C6 as amended: a pending run is closed out only by scanning a
subsequent line that is neither Removed nor Added (for a newline-terminated
block, the final empty line plays that role): every emitted hunk's closing
line is an actual line of the block whose first byte is neither '+' nor
'-'; end of input alone never closes a run. -/
theorem hunk_close_requires_terminator (src : List Char) (h : ChangeHunk)
    (hm : h ∈ diffHunks src) :
    h.closeIdx < (splitLines src).length ∧
    lineFirstChar ((splitLines src).getD h.closeIdx []) ≠ '+' ∧
    lineFirstChar ((splitLines src).getD h.closeIdx []) ≠ '-' := by
  obtain ⟨_, _, h3, _, h5, h6, _, _, _, _, _⟩ :=
    segRun_inv (lineStarts (splitLines src) 0) (splitLines src) (splitLines src) 0
      none none (by simp) (fun d hd => Option.noConfusion hd)
      (fun n hn => Option.noConfusion hn) h hm
  exact ⟨h3, h5, h6⟩

/-- Witness for hunk_close_requires_terminator at the diff block "+x\ny". -/
theorem hunk_close_requires_terminator_witness :
    (({ del := 0, ins := 0, closeIdx := 1, beginOffsetLeft := 0,
        endOffsetLeft := 0, beginOffsetRight := 0, endOffsetRight := 3,
        fine := true } : ChangeHunk) ∈ diffHunks ['+','x','\n','y']) ∧
    ((1 : Nat) < (splitLines ['+','x','\n','y']).length ∧
     lineFirstChar ((splitLines ['+','x','\n','y']).getD 1 []) ≠ '+' ∧
     lineFirstChar ((splitLines ['+','x','\n','y']).getD 1 []) ≠ '-') :=
  ⟨by decide, hunk_close_requires_terminator ['+','x','\n','y']
    { del := 0, ins := 0, closeIdx := 1, beginOffsetLeft := 0,
      endOffsetLeft := 0, beginOffsetRight := 0, endOffsetRight := 3,
      fine := true } (by decide)⟩

/-- Claim C7: on the line sequence ["-a","-b","+c","+d","e"] the segmenter
produces exactly one hunk whose old range covers lines 0-1 (bytes 0..6) and
whose new range covers lines 2-3 (bytes 6..12), line 4 starting at byte 12
outside both; on the pure deletion ["-a","-b","e"] the single hunk's old
range covers lines 0-1 (bytes 0..6) and its new range is empty (6..6). -/
theorem diff_segmentation_examples :
    diffHunks ['-','a','\n','-','b','\n','+','c','\n','+','d','\n','e'] =
      [{ del := 0, ins := 2, closeIdx := 4, beginOffsetLeft := 0,
         endOffsetLeft := 6, beginOffsetRight := 6, endOffsetRight := 12,
         fine := true }]
    ∧ lineStarts (splitLines ['-','a','\n','-','b','\n','+','c','\n','+','d','\n','e']) 0
      = [0, 3, 6, 9, 12]
    ∧ diffHunks ['-','a','\n','-','b','\n','e'] =
      [{ del := 0, ins := 2, closeIdx := 2, beginOffsetLeft := 0,
         endOffsetLeft := 6, beginOffsetRight := 6, endOffsetRight := 6,
         fine := true }] := by
  refine ⟨by decide, by decide, by decide⟩

/-- Claim C8: whenever the highlighter reports an error (returns none) the
code block still renders, as the HTML-escaped plain source inside the very
wrapper the language tag selected; the embedded renderer is a total
function, so the error never aborts the surrounding render. -/
theorem codeblock_error_fallback
    (hl : List Char → List Char → Option (List Char)) (info literal : List Char)
    (herr : hl literal (findLang info) = none) :
    codeblock hl info literal =
      (if findLang info = [] then "<pre><code>".toList
       else "<div class=\"highlight highlight-".toList ++ findLang info ++ "\">".toList)
      ++ attrEscape literal
      ++ (if findLang info = [] then "</code></pre>".toList
          else "</pre></div>".toList) := by
  simp only [codeblock, herr]

/-- Witness for codeblock_error_fallback with an always-failing highlighter
on fence info "Go x" and literal "<x>". -/
theorem codeblock_error_fallback_witness :
    (fun (_ _ : List Char) => (none : Option (List Char))) "<x>".toList (findLang "Go x".toList) = none ∧
    codeblock (fun _ _ => none) "Go x".toList "<x>".toList =
      (if findLang "Go x".toList = [] then "<pre><code>".toList
       else "<div class=\"highlight highlight-".toList ++ findLang "Go x".toList ++ "\">".toList)
      ++ attrEscape "<x>".toList
      ++ (if findLang "Go x".toList = [] then "</code></pre>".toList
          else "</pre></div>".toList) :=
  ⟨rfl, codeblock_error_fallback (fun _ _ => none) "Go x".toList "<x>".toList rfl⟩

/-- Claim C9: the escaping function maps `"` `&` `<` `>` to their entities,
leaves every other byte alone, and its output is exactly the in-order
concatenation of each input byte's escape — no byte dropped or
duplicated. -/
theorem attrEscape_per_byte :
    escapeSingleChar '"' = some "&quot;".toList ∧
    escapeSingleChar '&' = some "&amp;".toList ∧
    escapeSingleChar '<' = some "&lt;".toList ∧
    escapeSingleChar '>' = some "&gt;".toList ∧
    (∀ c : Char, c ≠ '"' → c ≠ '&' → c ≠ '<' → c ≠ '>' → escapeSingleChar c = none) ∧
    (∀ src : List Char, attrEscape src = (src.map escapedByte).flatten) := by
  refine ⟨by decide, by decide, by decide, by decide, ?_, ?_⟩
  · intro c h1 h2 h3 h4
    simp [escapeSingleChar, h1, h2, h3, h4]
  · intro src
    simpa [attrEscape] using attrEscapeAux_eq src []

/-- Witness for attrEscape_per_byte on the byte 'a' and the buffer "a<b". -/
theorem attrEscape_per_byte_witness :
    escapeSingleChar 'a' = none ∧
    attrEscape ['a', '<', 'b'] = ((['a', '<', 'b'].map escapedByte).flatten) :=
  ⟨attrEscape_per_byte.2.2.2.2.1 'a' (by decide) (by decide) (by decide) (by decide),
   attrEscape_per_byte.2.2.2.2.2 ['a', '<', 'b']⟩

/-- Claim C10: a zero-length line is classified neither Removed nor Added
(its first byte is read as the zero byte), and the segmenter's scan treats
it exactly as any other Context line: with an empty line at the head it
closes a pending run out to the very same hunks as with any non-'+', non-'-',
non-'@' line there; moreover a newline-terminated block always contributes
such a trailing empty line to the split. -/
theorem empty_line_terminates_run :
    lineFirstChar [] ≠ '+' ∧
    lineFirstChar [] ≠ '-' ∧
    (∀ (starts : List Nat) (l : List Char) (rest : List (List Char)) (i : Nat)
      (ld li : Option Nat),
      lineFirstChar l ≠ '+' → lineFirstChar l ≠ '-' → lineFirstChar l ≠ '@' →
      segRun starts ([] :: rest) i ld li = segRun starts (l :: rest) i ld li) ∧
    (∀ src : List Char, splitLines (src ++ ['\n']) = splitLines src ++ [[]]) := by
  refine ⟨by decide, by decide, ?_, splitLines_append_newline⟩
  intro starts l rest i ld li h1 h2 h3
  have hfine : (lineFirstChar ([] : List Char) != '@') = (lineFirstChar l != '@') := by
    have hb : (lineFirstChar l != '@') = true := bne_iff_ne.mpr h3
    rw [hb]
    decide
  have hch : closeHunk starts ld li i (lineFirstChar []) =
      closeHunk starts ld li i (lineFirstChar l) := by
    simp only [closeHunk, hfine]
  simp only [segRun]
  rw [if_neg (by decide), if_neg (by decide), if_neg h1, if_neg h2, hch]

/-- Witness for empty_line_terminates_run: the empty line and the line "x"
close a pending removal run identically. -/
theorem empty_line_terminates_run_witness :
    segRun [0, 1, 3] ([] :: [['e']]) 1 (some 0) none =
      segRun [0, 1, 3] (['x'] :: [['e']]) 1 (some 0) none :=
  empty_line_terminates_run.2.2.1 [0, 1, 3] ['x'] [['e']] 1 (some 0) none
    (by decide) (by decide) (by decide)

end GFM
